import Mathlib

/-!
Verification development for the Loreal data-mapping tool (`src/loreal.py`).

The program links a "portal" table to a "catalogue" table on the "ASIN"
column and copies the catalogue's "New EAN" column into the portal records,
either by an exact join (`rule_based_mapping`, implemented in the source
with `pd.merge(..., on="ASIN", how="left")`) or by fuzzy matching
(`fuzzy_mapping`, implemented with `rapidfuzz.process.extractOne` and
`fuzz.ratio`).

Tables are embedded as a rectangular grid: a list of column names and a
list of rows, each row a list of cells aligned positionally with the
columns.  A cell is `Option String`: `some s` models a scalar value
rendered as text, `none` models a missing value (NaN).  Both linkage
functions are embedded in state-passing style: they return the mapped
table (or `none` after a failed validation), the post-call state of both
input tables, and the list of validation errors reported via `st.error`,
so that mutation (the fuzzy strategy assigns a column onto its input
`df_portal`) and the absence of mutation are expressible.
-/

namespace Loreal

/-- A table cell: `some s` is a scalar rendered as text, `none` is missing (NaN). -/
abbrev Value := Option String

/-- A pandas DataFrame: named columns and rows of cells aligned with the columns. -/
structure Table where
  cols : List String
  rows : List (List Value)
deriving DecidableEq, Repr

/-- Rectangularity: every row has exactly one cell per column.  DataFrames
built by the source's loaders always satisfy this. -/
def Table.WF (t : Table) : Prop := ∀ r ∈ t.rows, r.length = t.cols.length

/-- Cell of `row` in the column named `colName` (`none` when the column is absent). -/
def getCell (cols : List String) (row : List Value) (colName : String) : Value :=
  row.getD (cols.indexOf colName) none

/-- The column named `colName` as a list of cells, in row order.  Embeds
`df[colName].tolist()`. -/
def Table.getCol (t : Table) (colName : String) : List Value :=
  t.rows.map (fun r => getCell t.cols r colName)

/-- Column assignment `df[colName] = vals`: overwrite the column in place when
it exists, otherwise append it as a new last column. -/
def Table.setCol (t : Table) (colName : String) (vals : List Value) : Table :=
  if colName ∈ t.cols then
    { cols := t.cols
      rows := (t.rows.zip vals).map (fun rv => rv.1.set (t.cols.indexOf colName) rv.2) }
  else
    { cols := t.cols ++ [colName]
      rows := (t.rows.zip vals).map (fun rv => rv.1 ++ [rv.2]) }

/-- A validation failure reported through `st.error`; the source's message
names both the file ("Portal"/"Catalogue") and the missing column, e.g.
"Portal file must contain an ASIN column.". -/
inductive MappingError where
  | missingColumn (tableName colName : String)
deriving DecidableEq, Repr

/-- Outcome of one linkage invocation in state-passing style: the returned
value (`none` models Python `return None`), the post-call portal and
catalogue tables, and the `st.error` messages emitted. -/
structure RunResult where
  result : Option Table
  portalAfter : Table
  catalogueAfter : Table
  errors : List MappingError
deriving DecidableEq, Repr

/-- Length of a longest common subsequence, with explicit fuel so the
recursion is structural; fuel `xs.length + ys.length` always suffices
(each recursive call shortens the combined length by at least one). -/
def lcsLenF : Nat → List Char → List Char → Nat
  | 0, _, _ => 0
  | _ + 1, [], _ => 0
  | _ + 1, _ :: _, [] => 0
  | f + 1, x :: xs, y :: ys =>
    if x = y then lcsLenF f xs ys + 1
    else max (lcsLenF f (x :: xs) ys) (lcsLenF f xs (y :: ys))

/-- Longest-common-subsequence length of two character lists. -/
def lcsLen (xs ys : List Char) : Nat := lcsLenF (xs.length + ys.length) xs ys

/-- Embeds `rapidfuzz.fuzz.ratio(a, b)`: the normalized InDel similarity
`100 * (1 - dist/(|a|+|b|))` where `dist = |a|+|b| - 2*LCS(a,b)`, i.e.
`200*LCS(a,b) / (|a|+|b|)`, as an exact rational in [0, 100]; two empty
strings score 100. -/
def fuzzRatioQ (a b : String) : ℚ :=
  if a.length + b.length = 0 then 100
  else ((200 * lcsLen a.data b.data : ℕ) : ℚ) / ((a.length + b.length : ℕ) : ℚ)

/-- Python `list.index(v)`: index of the first occurrence of `v`
(callers below only use it when `v` is a member). -/
def firstIdx : List Value → Value → Nat
  | [], _ => 0
  | x :: xs, v => if x = v then 0 else firstIdx xs v + 1

/-- Each non-missing choice paired with its `fuzz.ratio` score against the
query, in scan order; missing (`none`) choices are skipped, as `rapidfuzz`
skips `None` elements. -/
def scoreChoices (q : String) : List Value → List (Value × ℚ)
  | [] => []
  | none :: cs => scoreChoices q cs
  | some s :: cs => (some s, fuzzRatioQ q s) :: scoreChoices q cs

/-- The scan at the heart of `process.extractOne`: keep the first entry
attaining the maximum score (a later entry replaces the current best only
when its score is strictly greater). -/
def bestOf : List (Value × ℚ) → Option (Value × ℚ)
  | [] => none
  | x :: xs =>
    match bestOf xs with
    | none => some x
    | some b => if b.2 > x.2 then some b else some x

/-- Embeds `process.extractOne(query, choices, scorer=fuzz.ratio)` (no score
cutoff): `none` when the query is missing or no usable choice exists,
otherwise the first choice attaining the maximum score, with that score. -/
def extractOne (query : Value) (choices : List Value) : Option (Value × ℚ) :=
  match query with
  | none => none
  | some q => bestOf (scoreChoices q choices)

/-- The per-record closure `match_asin` of `fuzzy_mapping`: take the best
fuzzy match among the catalogue ASINs; if its score reaches the threshold,
return the "New EAN" at the first index of the matched ASIN (the source's
`catalogue_asins.index(matched_asin)`), else `none`. -/
def match_asin (catalogue_asins catalogue_new_eans : List Value) (threshold : ℚ)
    (asin : Value) : Value :=
  match extractOne asin catalogue_asins with
  | none => none
  | some (matched, score) =>
    if threshold ≤ score then
      catalogue_new_eans.getD (firstIdx catalogue_asins matched) none
    else none

/-- The maximum `fuzz.ratio` score of the query against the non-missing
catalogue key values (0 when there is none; scores are never negative). -/
def maxScore (q : String) (choices : List Value) : ℚ :=
  (scoreChoices q choices).foldl (fun m y => max m y.2) 0

/-- Catalogue rows whose "ASIN" cell equals `k`, in catalogue order. -/
def mergeRowMatches (c : Table) (k : Value) : List (List Value) :=
  c.rows.filter (fun cr => decide (getCell c.cols cr "ASIN" = k))

/-- Output rows of the left merge for one portal row: one row per matching
catalogue row, each carrying that catalogue row's "New EAN", or a single
row with a missing cell when nothing matches. -/
def mergeOutRows (p c : Table) (r : List Value) : List (List Value) :=
  let ms := mergeRowMatches c (getCell p.cols r "ASIN")
  if ms = [] then [r ++ [(none : Value)]]
  else ms.map (fun cr => r ++ [getCell c.cols cr "New EAN"])

/-- Embeds `pd.merge(df_portal, df_catalogue[["ASIN", "New EAN"]], on="ASIN",
how="left")`: for each portal row in order, its `mergeOutRows`, concatenated.
Renaming on column-name collision (pandas suffixes) is not modelled; the
appended column is always named "New EAN". -/
def merge_left (p c : Table) : Table :=
  { cols := p.cols ++ ["New EAN"]
    rows := p.rows.flatMap (mergeOutRows p c) }

/-- Embeds `rule_based_mapping(df_portal, df_catalogue)`: three validation
checks in source order, each reporting through `st.error` and returning
`None`, then the exact left merge.  Neither input table is modified. -/
def rule_based_mapping (p c : Table) : RunResult :=
  if "ASIN" ∉ p.cols then
    ⟨none, p, c, [.missingColumn "Portal" "ASIN"]⟩
  else if "ASIN" ∉ c.cols then
    ⟨none, p, c, [.missingColumn "Catalogue" "ASIN"]⟩
  else if "New EAN" ∉ c.cols then
    ⟨none, p, c, [.missingColumn "Catalogue" "New EAN"]⟩
  else
    ⟨some (merge_left p c), p, c, []⟩

/-- Embeds `fuzzy_mapping(df_portal, df_catalogue, threshold)`: the same
three validation checks, then `df_portal["New EAN"] =
df_portal["ASIN"].apply(match_asin)` — the portal table itself is mutated
and returned (`return df_portal`), so the post-call portal equals the
result.  The threshold is never validated. -/
def fuzzy_mapping (p c : Table) (threshold : ℚ) : RunResult :=
  if "ASIN" ∉ p.cols then
    ⟨none, p, c, [.missingColumn "Portal" "ASIN"]⟩
  else if "ASIN" ∉ c.cols then
    ⟨none, p, c, [.missingColumn "Catalogue" "ASIN"]⟩
  else if "New EAN" ∉ c.cols then
    ⟨none, p, c, [.missingColumn "Catalogue" "New EAN"]⟩
  else
    let catalogue_asins := c.getCol "ASIN"
    let catalogue_new_eans := c.getCol "New EAN"
    let p2 := p.setCol "New EAN"
      ((p.getCol "ASIN").map (match_asin catalogue_asins catalogue_new_eans threshold))
    ⟨some p2, p2, c, []⟩

/-! ### Bounds on the similarity score -/

theorem lcsLenF_le (f : Nat) : ∀ (xs ys : List Char),
    lcsLenF f xs ys ≤ xs.length ∧ lcsLenF f xs ys ≤ ys.length := by
  induction f with
  | zero => intro xs ys; simp [lcsLenF]
  | succ f ih =>
    intro xs ys
    cases xs with
    | nil => simp [lcsLenF]
    | cons x xs =>
      cases ys with
      | nil => simp [lcsLenF]
      | cons y ys =>
        simp only [lcsLenF]
        by_cases hxy : x = y
        · simp only [if_pos hxy, List.length_cons]
          exact ⟨Nat.succ_le_succ (ih xs ys).1, Nat.succ_le_succ (ih xs ys).2⟩
        · simp only [if_neg hxy, List.length_cons]
          have h1 := ih (x :: xs) ys
          have h2 := ih xs (y :: ys)
          simp only [List.length_cons] at h1 h2
          constructor
          · exact max_le h1.1 (le_trans h2.1 (Nat.le_succ _))
          · exact max_le (le_trans h1.2 (Nat.le_succ _)) h2.2

theorem lcsLen_le_left (xs ys : List Char) : lcsLen xs ys ≤ xs.length :=
  (lcsLenF_le _ xs ys).1

theorem lcsLen_le_right (xs ys : List Char) : lcsLen xs ys ≤ ys.length :=
  (lcsLenF_le _ xs ys).2

theorem fuzzRatioQ_nonneg (a b : String) : 0 ≤ fuzzRatioQ a b := by
  unfold fuzzRatioQ
  split
  · norm_num
  · positivity

theorem fuzzRatioQ_le_100 (a b : String) : fuzzRatioQ a b ≤ 100 := by
  unfold fuzzRatioQ
  split
  · norm_num
  · rename_i h
    have hpos : (0 : ℚ) < ((a.length + b.length : ℕ) : ℚ) := by
      have : 0 < a.length + b.length := Nat.pos_of_ne_zero h
      exact_mod_cast this
    rw [div_le_iff₀ hpos]
    have h1 := lcsLen_le_left a.data b.data
    have h2 := lcsLen_le_right a.data b.data
    have ha : a.data.length = a.length := rfl
    have hb : b.data.length = b.length := rfl
    rw [ha] at h1
    rw [hb] at h2
    have hnat : 200 * lcsLen a.data b.data ≤ 100 * (a.length + b.length) := by omega
    exact_mod_cast hnat

/-! ### Facts about `firstIdx` (Python `list.index`) -/

theorem firstIdx_lt_of_mem {l : List Value} {v : Value} (h : v ∈ l) :
    firstIdx l v < l.length := by
  induction l with
  | nil => simp at h
  | cons x xs ih =>
    simp only [firstIdx]
    by_cases hx : x = v
    · simp [hx]
    · simp only [if_neg hx, List.length_cons]
      rcases List.mem_cons.mp h with h1 | h1
      · exact absurd h1.symm hx
      · exact Nat.succ_lt_succ (ih h1)

theorem getD_firstIdx {l : List Value} {v : Value} (h : v ∈ l) :
    l.getD (firstIdx l v) none = v := by
  induction l with
  | nil => simp at h
  | cons x xs ih =>
    simp only [firstIdx]
    by_cases hx : x = v
    · simp [hx]
    · simp only [if_neg hx]
      rcases List.mem_cons.mp h with h1 | h1
      · exact absurd h1.symm hx
      · simpa using ih h1

/-! ### Facts about the scan of `process.extractOne` -/

theorem mem_scoreChoices {q : String} {cs : List Value} {x : Value × ℚ} :
    x ∈ scoreChoices q cs ↔ ∃ s, x = (some s, fuzzRatioQ q s) ∧ some s ∈ cs := by
  induction cs with
  | nil => simp [scoreChoices]
  | cons c cs ih =>
    cases c with
    | none => simp only [scoreChoices, ih]; simp
    | some s0 =>
      simp only [scoreChoices, List.mem_cons, ih]
      constructor
      · rintro (rfl | ⟨s, rfl, hs⟩)
        · exact ⟨s0, rfl, by simp⟩
        · exact ⟨s, rfl, by simp [hs]⟩
      · rintro ⟨s, rfl, hs⟩
        rcases hs with h1 | h1
        · rcases Option.some_injective _ h1 with rfl
          exact Or.inl rfl
        · exact Or.inr ⟨s, rfl, h1⟩

theorem bestOf_eq_none {l : List (Value × ℚ)} : bestOf l = none ↔ l = [] := by
  cases l with
  | nil => simp [bestOf]
  | cons x xs =>
    cases h : bestOf xs with
    | none => simp [bestOf, h]
    | some b => simp only [bestOf, h]; split <;> simp

theorem bestOf_mem {l : List (Value × ℚ)} {x : Value × ℚ} (h : bestOf l = some x) :
    x ∈ l := by
  induction l with
  | nil => simp [bestOf] at h
  | cons y ys ih =>
    cases hb : bestOf ys with
    | none =>
      simp only [bestOf, hb] at h
      simp at h
      simp [h]
    | some b =>
      simp only [bestOf, hb] at h
      split at h
      · have hbx : b = x := by simpa using h
        subst hbx
        exact List.mem_cons_of_mem _ (ih hb)
      · have hyx : y = x := by simpa using h
        subst hyx
        exact List.mem_cons_self _ _

theorem bestOf_is_max {l : List (Value × ℚ)} {x : Value × ℚ} (h : bestOf l = some x) :
    ∀ y ∈ l, y.2 ≤ x.2 := by
  induction l generalizing x with
  | nil => simp
  | cons z zs ih =>
    intro y hy
    cases hb : bestOf zs with
    | none =>
      simp only [bestOf, hb] at h
      have hzs : zs = [] := bestOf_eq_none.mp hb
      subst hzs
      have hzx : z = x := by simpa using h
      subst hzx
      simp at hy
      simp [hy]
    | some b =>
      simp only [bestOf, hb] at h
      rcases List.mem_cons.mp hy with rfl | hy2
      · split at h
        · rename_i hgt
          have : b = x := by simpa using h
          subst this
          exact le_of_lt hgt
        · have hyx : y = x := by simpa using h
          subst hyx
          exact le_refl _
      · have hyb := ih hb y hy2
        split at h
        · have : b = x := by simpa using h
          subst this
          exact hyb
        · rename_i hng
          have : z = x := by simpa using h
          subst this
          exact le_trans hyb (not_lt.mp hng)

theorem extractOne_spec {q : String} {cs : List Value} {x : Value} {sc : ℚ}
    (h : extractOne (some q) cs = some (x, sc)) :
    (∃ s, x = some s ∧ sc = fuzzRatioQ q s ∧ some s ∈ cs)
    ∧ (∀ s, some s ∈ cs → fuzzRatioQ q s ≤ sc) := by
  simp only [extractOne] at h
  have hmem := bestOf_mem h
  have hmax := bestOf_is_max h
  constructor
  · rcases mem_scoreChoices.mp hmem with ⟨s, hx, hs⟩
    rw [Prod.ext_iff] at hx
    exact ⟨s, hx.1, hx.2, hs⟩
  · intro s hs
    have hin : (some s, fuzzRatioQ q s) ∈ scoreChoices q cs :=
      mem_scoreChoices.mpr ⟨s, rfl, hs⟩
    simpa using hmax _ hin

theorem extractOne_isSome {q : String} {cs : List Value} {s0 : String}
    (hs : some s0 ∈ cs) : ∃ x sc, extractOne (some q) cs = some (x, sc) := by
  simp only [extractOne]
  cases hb : bestOf (scoreChoices q cs) with
  | none =>
    have hnil := bestOf_eq_none.mp hb
    have hin : (some s0, fuzzRatioQ q s0) ∈ scoreChoices q cs :=
      mem_scoreChoices.mpr ⟨s0, rfl, hs⟩
    rw [hnil] at hin
    simp at hin
  | some b => exact ⟨b.1, b.2, by simp⟩

theorem extractOne_mem {q : String} {cs : List Value} {x : Value} {sc : ℚ}
    (h : extractOne (some q) cs = some (x, sc)) : x ∈ cs := by
  rcases (extractOne_spec h).1 with ⟨s, rfl, _, hs⟩
  exact hs

/-- The element returned by the scan is the first one attaining the maximum
score: every non-missing choice strictly before the first occurrence of the
returned value scores strictly below the returned score. -/
theorem extractOne_first {q : String} : ∀ (cs : List Value) (x : Value) (sc : ℚ),
    extractOne (some q) cs = some (x, sc) →
    ∀ j, j < firstIdx cs x → ∀ s, cs.getD j none = some s → fuzzRatioQ q s < sc := by
  intro cs
  induction cs with
  | nil => intro x sc h; simp [extractOne, scoreChoices, bestOf] at h
  | cons c cs ih =>
    intro x sc h j hj s hget
    cases c with
    | none =>
      have hx : x ∈ none :: cs := extractOne_mem h
      have h' : extractOne (some q) cs = some (x, sc) := by
        simpa [extractOne, scoreChoices] using h
      have hxne : (none : Value) ≠ x := by
        rintro rfl
        rcases (extractOne_spec h').1 with ⟨s', hs', _, _⟩
        exact Option.noConfusion hs'
      simp only [firstIdx, if_neg hxne] at hj
      cases j with
      | zero => simp at hget
      | succ j' =>
        simp only [List.getD_cons_succ] at hget
        exact ih x sc h' j' (Nat.lt_of_succ_lt_succ hj) s hget
    | some s0 =>
      simp only [extractOne, scoreChoices] at h
      cases hb : bestOf (scoreChoices q cs) with
      | none =>
        simp only [bestOf, hb] at h
        have hx : (some s0, fuzzRatioQ q s0) = (x, sc) := by simpa using h
        rw [Prod.ext_iff] at hx
        rw [firstIdx, if_pos hx.1] at hj
        exact absurd hj (Nat.not_lt_zero j)
      | some b =>
        simp only [bestOf, hb] at h
        split at h
        · rename_i hgt
          have hbx : b = (x, sc) := by simpa using h
          subst hbx
          by_cases hc : (some s0 : Value) = x
          · rw [firstIdx, if_pos hc] at hj
            exact absurd hj (Nat.not_lt_zero j)
          · rw [firstIdx, if_neg hc] at hj
            cases j with
            | zero =>
              simp only [List.getD_cons_zero] at hget
              rcases Option.some_injective _ hget with rfl
              exact hgt
            | succ j' =>
              simp only [List.getD_cons_succ] at hget
              exact ih x sc (by simpa [extractOne] using hb) j'
                (Nat.lt_of_succ_lt_succ hj) s hget
        · have hx : (some s0, fuzzRatioQ q s0) = (x, sc) := by simpa using h
          rw [Prod.ext_iff] at hx
          rw [firstIdx, if_pos hx.1] at hj
          exact absurd hj (Nat.not_lt_zero j)

/-! ### The fold in `maxScore` agrees with the scan -/

theorem foldl_max_le {l : List (Value × ℚ)} {b B : ℚ} (hb : b ≤ B)
    (h : ∀ y ∈ l, y.2 ≤ B) : l.foldl (fun m y => max m y.2) b ≤ B := by
  induction l generalizing b with
  | nil => simpa using hb
  | cons z zs ih =>
    simp only [List.foldl_cons]
    exact ih (max_le hb (h z (by simp))) (fun y hy => h y (by simp [hy]))

theorem init_le_foldl_max {l : List (Value × ℚ)} {b : ℚ} :
    b ≤ l.foldl (fun m y => max m y.2) b := by
  induction l generalizing b with
  | nil => simp
  | cons z zs ih =>
    simp only [List.foldl_cons]
    exact le_trans (le_max_left _ _) ih

theorem le_foldl_max {l : List (Value × ℚ)} {b : ℚ} {y : Value × ℚ} (h : y ∈ l) :
    y.2 ≤ l.foldl (fun m y => max m y.2) b := by
  induction l generalizing b with
  | nil => simp at h
  | cons z zs ih =>
    simp only [List.foldl_cons]
    rcases List.mem_cons.mp h with rfl | h2
    · exact le_trans (le_max_right _ _) init_le_foldl_max
    · exact ih h2

/-- When the scan returns a best entry, its score is exactly the maximum
score over the choices. -/
theorem maxScore_eq {q : String} {cs : List Value} {x : Value} {sc : ℚ}
    (h : extractOne (some q) cs = some (x, sc)) : maxScore q cs = sc := by
  obtain ⟨⟨s, hx, hsc, hs⟩, hub⟩ := extractOne_spec h
  have hmem : (x, sc) ∈ scoreChoices q cs := by
    rw [hx, hsc]
    exact mem_scoreChoices.mpr ⟨s, rfl, hs⟩
  apply le_antisymm
  · apply foldl_max_le
    · rw [hsc]; exact fuzzRatioQ_nonneg q s
    · intro y hy
      rcases mem_scoreChoices.mp hy with ⟨s', rfl, hs'⟩
      exact hub s' hs'
  · exact le_foldl_max hmem

/-! ### Basic behavior of the per-record fuzzy matcher -/

theorem match_asin_eq_of_le {cs es : List Value} {t : ℚ} {q : String} {x : Value}
    {sc : ℚ} (h : extractOne (some q) cs = some (x, sc)) (ht : t ≤ sc) :
    match_asin cs es t (some q) = es.getD (firstIdx cs x) none := by
  simp [match_asin, h, if_pos ht]

theorem match_asin_eq_none_of_lt {cs es : List Value} {t : ℚ} {q : String} {x : Value}
    {sc : ℚ} (h : extractOne (some q) cs = some (x, sc)) (ht : sc < t) :
    match_asin cs es t (some q) = none := by
  simp [match_asin, h, if_neg (not_le.mpr ht)]

theorem match_asin_nil (es : List Value) (t : ℚ) (a : Value) :
    match_asin [] es t a = none := by
  cases a <;> simp [match_asin, extractOne, scoreChoices, bestOf]

/-- With a threshold above 100 no record can ever match: every score is at
most 100, so the comparison always fails. -/
theorem match_asin_of_gt100 {cs es : List Value} {t : ℚ} (a : Value) (ht : 100 < t) :
    match_asin cs es t a = none := by
  cases a with
  | none => simp [match_asin, extractOne]
  | some q =>
    cases h : extractOne (some q) cs with
    | none => simp [match_asin, h]
    | some p =>
      obtain ⟨x, sc⟩ := p
      obtain ⟨⟨s, hx, hsc, hs⟩, _⟩ := extractOne_spec h
      have hle : sc ≤ 100 := by rw [hsc]; exact fuzzRatioQ_le_100 q s
      exact match_asin_eq_none_of_lt h (lt_of_le_of_lt hle ht)

/-! ### Generic list facts used for the table operations -/

theorem getD_set_self {l : List Value} {n : Nat} {v d : Value} (h : n < l.length) :
    (l.set n v).getD n d = v := by
  simp [List.getD_eq_getElem?_getD, List.getElem?_set_self h]

theorem getD_set_ne {l : List Value} {m n : Nat} {v d : Value} (h : m ≠ n) :
    (l.set m v).getD n d = l.getD n d := by
  simp [List.getD_eq_getElem?_getD, List.getElem?_set_ne h]

theorem getD_append_self {l l2 : List Value} {v d : Value} :
    ((l ++ [v]) ++ l2).getD l.length d = v := by
  rw [List.append_assoc, List.getD_append_right _ _ _ _ (le_refl _), Nat.sub_self]
  rfl

theorem getD_concat_self {l : List Value} {v d : Value} :
    (l ++ [v]).getD l.length d = v := by
  rw [List.getD_append_right _ _ _ _ (le_refl _), Nat.sub_self]
  rfl

theorem map_zip_map {α β γ : Type _} (f : α → β → γ) (g : α → γ) :
    ∀ (l₁ : List α) (l₂ : List β), l₁.length = l₂.length →
    (∀ a ∈ l₁, ∀ b ∈ l₂, f a b = g a) →
    ((l₁.zip l₂).map (fun ab => f ab.1 ab.2)) = l₁.map g := by
  intro l₁
  induction l₁ with
  | nil => intro l₂ _ _; simp
  | cons a l₁ ih =>
    intro l₂ hlen hf
    cases l₂ with
    | nil => simp at hlen
    | cons b l₂ =>
      simp only [List.zip_cons_cons, List.map_cons]
      congr 1
      · exact hf a (List.mem_cons_self _ _) b (List.mem_cons_self _ _)
      · exact ih l₂ (Nat.succ_injective hlen)
          (fun a' ha' b' hb' =>
            hf a' (List.mem_cons_of_mem _ ha') b' (List.mem_cons_of_mem _ hb'))

theorem map_zip_map_right {α β γ : Type _} (f : α → β → γ) (g : β → γ) :
    ∀ (l₁ : List α) (l₂ : List β), l₁.length = l₂.length →
    (∀ a ∈ l₁, ∀ b ∈ l₂, f a b = g b) →
    ((l₁.zip l₂).map (fun ab => f ab.1 ab.2)) = l₂.map g := by
  intro l₁
  induction l₁ with
  | nil =>
    intro l₂ hlen _
    cases l₂ with
    | nil => simp
    | cons b l₂ => simp at hlen
  | cons a l₁ ih =>
    intro l₂ hlen hf
    cases l₂ with
    | nil => simp at hlen
    | cons b l₂ =>
      simp only [List.zip_cons_cons, List.map_cons]
      congr 1
      · exact hf a (List.mem_cons_self _ _) b (List.mem_cons_self _ _)
      · exact ih l₂ (Nat.succ_injective hlen)
          (fun a' ha' b' hb' =>
            hf a' (List.mem_cons_of_mem _ ha') b' (List.mem_cons_of_mem _ hb'))

theorem flatMap_length_one {α β : Type _} (l : List α) (f : α → List β)
    (h : ∀ r ∈ l, (f r).length = 1) : (l.flatMap f).length = l.length := by
  induction l with
  | nil => simp
  | cons a l ih =>
    simp only [List.flatMap_cons, List.length_append, List.length_cons]
    rw [h a (List.mem_cons_self _ _), ih (fun r hr => h r (List.mem_cons_of_mem _ hr))]
    omega

theorem flatMap_map_single (l : List (List Value)) (f : List Value → List (List Value))
    (g : List Value → Value) (g' : List Value → Value)
    (h : ∀ r ∈ l, ∃ v, f r = [r ++ [v]] ∧ g (r ++ [v]) = g' r) :
    (l.flatMap f).map g = l.map g' := by
  induction l with
  | nil => simp
  | cons a l ih =>
    obtain ⟨v, hfa, hg⟩ := h a (List.mem_cons_self _ _)
    simp only [List.flatMap_cons, List.map_append, List.map_cons, hfa, List.map_nil,
      List.singleton_append]
    rw [hg, ih (fun r hr => h r (List.mem_cons_of_mem _ hr))]

theorem length_filter_le_one {α β : Type _} [DecidableEq β] (l : List α) (f : α → β)
    (k : β) (h : (l.map f).Nodup) :
    (l.filter (fun x => decide (f x = k))).length ≤ 1 := by
  induction l with
  | nil => simp
  | cons a l ih =>
    simp only [List.map_cons, List.nodup_cons] at h
    by_cases hak : f a = k
    · have hnil : l.filter (fun x => decide (f x = k)) = [] := by
        rw [List.filter_eq_nil_iff]
        intro x hx
        simp only [decide_eq_true_eq]
        intro hfx
        exact h.1 (by rw [hak, ← hfx]; exact List.mem_map_of_mem f hx)
      simp [List.filter_cons, hak, hnil]
    · simp only [List.filter_cons, decide_eq_true_eq, if_neg hak]
      exact ih h.2

/-! ### Facts about the table operations -/

theorem getCol_length (t : Table) (colName : String) :
    (t.getCol colName).length = t.rows.length := by
  simp [Table.getCol]

theorem setCol_rows_length (t : Table) (colName : String) (vals : List Value) :
    (t.setCol colName vals).rows.length = min t.rows.length vals.length := by
  unfold Table.setCol
  split <;> simp

theorem getCell_append_col {cols : List String} {r : List Value} {v : Value}
    {colB e : String} (hmem : colB ∈ cols) (hlen : r.length = cols.length) :
    getCell (cols ++ [e]) (r ++ [v]) colB = getCell cols r colB := by
  unfold getCell
  rw [List.indexOf_append_of_mem hmem]
  have hidx : cols.indexOf colB < cols.length := List.indexOf_lt_length.mpr hmem
  rw [List.getD_append _ _ _ _ (by omega)]

theorem getCol_setCol_self {t : Table} {colName : String} {vals : List Value}
    (hwf : t.WF) (hlen : vals.length = t.rows.length) :
    (t.setCol colName vals).getCol colName = vals := by
  unfold Table.setCol Table.getCol
  by_cases h : colName ∈ t.cols
  · simp only [if_pos h, List.map_map]
    have := map_zip_map_right
      (fun r v => getCell t.cols (r.set (t.cols.indexOf colName) v) colName)
      (fun v => v) t.rows vals hlen.symm ?_
    · simpa [Function.comp] using this
    · intro r hr v _
      unfold getCell
      have hidx : t.cols.indexOf colName < t.cols.length := List.indexOf_lt_length.mpr h
      exact getD_set_self (by rw [hwf r hr]; omega)
  · simp only [if_neg h, List.map_map]
    have := map_zip_map_right
      (fun r v => getCell (t.cols ++ [colName]) (r ++ [v]) colName)
      (fun v => v) t.rows vals hlen.symm ?_
    · simpa [Function.comp] using this
    · intro r hr v _
      unfold getCell
      rw [List.indexOf_append_of_not_mem h]
      simp only [List.indexOf_cons_self, Nat.add_zero]
      rw [← hwf r hr]
      exact getD_concat_self

theorem getCol_setCol_ne {t : Table} {colName colB : String} {vals : List Value}
    (hwf : t.WF) (hlen : vals.length = t.rows.length)
    (hmem : colB ∈ t.cols) (hne : colB ≠ colName) :
    (t.setCol colName vals).getCol colB = t.getCol colB := by
  unfold Table.setCol Table.getCol
  by_cases h : colName ∈ t.cols
  · simp only [if_pos h, List.map_map]
    have := map_zip_map
      (fun r v => getCell t.cols (r.set (t.cols.indexOf colName) v) colB)
      (fun r => getCell t.cols r colB) t.rows vals hlen.symm ?_
    · simpa [Function.comp] using this
    · intro r _ v _
      unfold getCell
      have hij : t.cols.indexOf colName ≠ t.cols.indexOf colB := by
        intro heq
        exact hne ((List.indexOf_inj hmem h).mp heq.symm)
      exact getD_set_ne hij
  · simp only [if_neg h, List.map_map]
    have := map_zip_map
      (fun r v => getCell (t.cols ++ [colName]) (r ++ [v]) colB)
      (fun r => getCell t.cols r colB) t.rows vals hlen.symm ?_
    · simpa [Function.comp] using this
    · intro r hr v _
      exact getCell_append_col hmem (hwf r hr)

theorem mem_of_getD {l : List Value} {j : Nat} {s : String}
    (hget : l.getD j none = some s) : some s ∈ l := by
  induction l generalizing j with
  | nil => simp at hget
  | cons a l ih =>
    cases j with
    | zero =>
      simp only [List.getD_cons_zero] at hget
      rw [hget]
      exact List.mem_cons_self _ _
    | succ j' =>
      simp only [List.getD_cons_succ] at hget
      exact List.mem_cons_of_mem _ (ih hget)

/-- When the catalogue key column carries no duplicates, the merge produces
exactly one output row per portal row: the portal row with one appended cell. -/
theorem mergeOutRows_single {p c : Table} (hnodup : (c.getCol "ASIN").Nodup)
    (r : List Value) : ∃ v, mergeOutRows p c r = [r ++ [v]] := by
  have hlen : (mergeRowMatches c (getCell p.cols r "ASIN")).length ≤ 1 :=
    length_filter_le_one c.rows (fun cr => getCell c.cols cr "ASIN") _ hnodup
  cases hms : mergeRowMatches c (getCell p.cols r "ASIN") with
  | nil => exact ⟨none, by simp [mergeOutRows, hms]⟩
  | cons m rest =>
    rw [hms] at hlen
    cases rest with
    | nil => exact ⟨getCell c.cols m "New EAN", by simp [mergeOutRows, hms]⟩
    | cons m2 rest2 => simp at hlen

/-! ### Shape of the two strategies after validation, and frame facts -/

theorem rule_based_mapping_success {p c : Table}
    (hA : "ASIN" ∈ p.cols) (hcA : "ASIN" ∈ c.cols) (hcE : "New EAN" ∈ c.cols) :
    rule_based_mapping p c = ⟨some (merge_left p c), p, c, []⟩ := by
  simp only [rule_based_mapping, if_neg (not_not_intro hA),
    if_neg (not_not_intro hcA), if_neg (not_not_intro hcE)]

theorem fuzzy_mapping_success {p c : Table} {t : ℚ}
    (hA : "ASIN" ∈ p.cols) (hcA : "ASIN" ∈ c.cols) (hcE : "New EAN" ∈ c.cols) :
    fuzzy_mapping p c t = ⟨some (p.setCol "New EAN" ((p.getCol "ASIN").map
        (match_asin (c.getCol "ASIN") (c.getCol "New EAN") t))),
      p.setCol "New EAN" ((p.getCol "ASIN").map
        (match_asin (c.getCol "ASIN") (c.getCol "New EAN") t)), c, []⟩ := by
  simp only [fuzzy_mapping, if_neg (not_not_intro hA),
    if_neg (not_not_intro hcA), if_neg (not_not_intro hcE)]

theorem rule_based_portalAfter (p c : Table) :
    (rule_based_mapping p c).portalAfter = p := by
  unfold rule_based_mapping
  split
  · rfl
  · split
    · rfl
    · split <;> rfl

theorem rule_based_catalogueAfter (p c : Table) :
    (rule_based_mapping p c).catalogueAfter = c := by
  unfold rule_based_mapping
  split
  · rfl
  · split
    · rfl
    · split <;> rfl

theorem fuzzy_catalogueAfter (p c : Table) (t : ℚ) :
    (fuzzy_mapping p c t).catalogueAfter = c := by
  unfold fuzzy_mapping
  split
  · rfl
  · split
    · rfl
    · split <;> rfl

theorem fuzzy_vals_length (p c : Table) (t : ℚ) :
    ((p.getCol "ASIN").map
        (match_asin (c.getCol "ASIN") (c.getCol "New EAN") t)).length
      = p.rows.length := by
  simp [Table.getCol]

/-! ### Concrete tables used in counterexamples and witnesses -/

/-- One-row portal table with key "A1". -/
def pA1 : Table := ⟨["ASIN"], [[some "A1"]]⟩

/-- Catalogue containing the key "A1" twice: first with target "X", then
with target "Y". -/
def cDup : Table := ⟨["ASIN", "New EAN"], [[some "A1", some "X"], [some "A1", some "Y"]]⟩

/-- Catalogue with the single key "A1" and target "E". -/
def cOne : Table := ⟨["ASIN", "New EAN"], [[some "A1", some "E"]]⟩

/-- A portal table without the "ASIN" column. -/
def pBad : Table := ⟨["SKU"], [[some "A1"]]⟩

/-- A catalogue table missing both required columns. -/
def cBad : Table := ⟨["Name"], []⟩

/-! ### Claim C1 -/

/-- Claim C1 as stated is false: on the one-row portal `pA1` and the
catalogue `cDup` whose key "A1" occurs twice, the exact join returns a
mapped table with two rows, not one — `pd.merge(..., how="left")` emits one
row per matching catalogue record instead of keeping each portal record
exactly once. -/
theorem C1_counterexample :
    ((rule_based_mapping pA1 cDup).result.map (fun m => m.rows.length)) = some 2
    ∧ pA1.rows.length = 1 := by
  constructor <;> decide

/-- Claim C1 (amended): for validated rectangular inputs, the fuzzy match
preserves the portal record count and key order unconditionally, and the
exact join preserves them provided no catalogue key value is duplicated;
with duplicated catalogue keys the exact join repeats a portal record once
per matching catalogue record, as the counterexample shows. -/
theorem C1_row_and_order_preservation (p c : Table) (t : ℚ) (hwf : p.WF)
    (hA : "ASIN" ∈ p.cols) (hcA : "ASIN" ∈ c.cols) (hcE : "New EAN" ∈ c.cols) :
    (∃ m, (fuzzy_mapping p c t).result = some m
      ∧ m.rows.length = p.rows.length
      ∧ m.getCol "ASIN" = p.getCol "ASIN")
    ∧ ((c.getCol "ASIN").Nodup →
      ∃ m, (rule_based_mapping p c).result = some m
        ∧ m.rows.length = p.rows.length
        ∧ m.getCol "ASIN" = p.getCol "ASIN") := by
  constructor
  · refine ⟨p.setCol "New EAN" ((p.getCol "ASIN").map
        (match_asin (c.getCol "ASIN") (c.getCol "New EAN") t)), ?_, ?_, ?_⟩
    · rw [fuzzy_mapping_success hA hcA hcE]
    · rw [setCol_rows_length, fuzzy_vals_length, Nat.min_self]
    · exact getCol_setCol_ne hwf (fuzzy_vals_length p c t) hA (by decide)
  · intro hnodup
    refine ⟨merge_left p c, ?_, ?_, ?_⟩
    · rw [rule_based_mapping_success hA hcA hcE]
    · show (p.rows.flatMap (mergeOutRows p c)).length = p.rows.length
      apply flatMap_length_one
      intro r hr
      obtain ⟨v, hv⟩ := mergeOutRows_single hnodup r
      rw [hv]
      rfl
    · show (p.rows.flatMap (mergeOutRows p c)).map
          (fun r => getCell (p.cols ++ ["New EAN"]) r "ASIN")
        = p.rows.map (fun r => getCell p.cols r "ASIN")
      apply flatMap_map_single
      intro r hr
      obtain ⟨v, hv⟩ := mergeOutRows_single hnodup r
      exact ⟨v, hv, getCell_append_col hA (hwf r hr)⟩

/-- Witness instantiating the amended C1 at concrete validated tables. -/
theorem C1_witness :
    (∃ m, (fuzzy_mapping pA1 cOne 90).result = some m
      ∧ m.rows.length = pA1.rows.length
      ∧ m.getCol "ASIN" = pA1.getCol "ASIN")
    ∧ ((cOne.getCol "ASIN").Nodup →
      ∃ m, (rule_based_mapping pA1 cOne).result = some m
        ∧ m.rows.length = pA1.rows.length
        ∧ m.getCol "ASIN" = pA1.getCol "ASIN") :=
  C1_row_and_order_preservation pA1 cOne 90
    (show ∀ r ∈ pA1.rows, r.length = pA1.cols.length by decide)
    (by decide) (by decide) (by decide)

/-! ### Claim C2 -/

/-- Claim C2 as stated is false: with catalogue `cDup` (key "A1" mapping
first to "X", then to "Y") and a portal row keyed "A1", the exact join does
not produce the single last-write-wins record with target "Y"; it produces
two rows, the first carrying "X". -/
theorem C2_counterexample :
    (rule_based_mapping pA1 cDup).result
      = some ⟨["ASIN", "New EAN"], [[some "A1", some "X"], [some "A1", some "Y"]]⟩
    ∧ (rule_based_mapping pA1 cDup).result
      ≠ some ⟨["ASIN", "New EAN"], [[some "A1", some "Y"]]⟩ := by
  constructor <;> decide

/-- Claim C2 (amended): the exact join does not collapse duplicate catalogue
keys with a last-write-wins lookup; a catalogue holding {key k, target vx}
followed by {key k, target vy} yields, for a portal record keyed k, two
mapped rows whose targets are vx then vy, in catalogue order. -/
theorem C2_duplicate_keys_expand (k : String) (vx vy : Value) :
    (rule_based_mapping ⟨["ASIN"], [[some k]]⟩
        ⟨["ASIN", "New EAN"], [[some k, vx], [some k, vy]]⟩).result
      = some ⟨["ASIN", "New EAN"], [[some k, vx], [some k, vy]]⟩ := by
  simp +decide [rule_based_mapping, merge_left, mergeOutRows, mergeRowMatches,
    getCell]

/-! ### Claim C3 -/

/-- Claim C3 as stated is false: called with the out-of-range threshold 101
on validated tables, the fuzzy match raises no error at entry and still
returns a mapped table — the source never checks the threshold. -/
theorem C3_counterexample :
    (fuzzy_mapping pA1 cOne 101).errors = []
    ∧ ((fuzzy_mapping pA1 cOne 101).result).isSome = true := by
  constructor <;> norm_num +decide [fuzzy_mapping, pA1, cOne]

/-- Claim C3 (amended): the fuzzy match performs no threshold validation;
an out-of-range threshold is accepted silently.  In particular a threshold
above 100 reports no error and returns a mapped table in which every
record's target value is missing, since no score can reach it. -/
theorem C3_no_threshold_validation (p c : Table) (t : ℚ) (hwf : p.WF)
    (hA : "ASIN" ∈ p.cols) (hcA : "ASIN" ∈ c.cols) (hcE : "New EAN" ∈ c.cols)
    (ht : 100 < t) :
    (fuzzy_mapping p c t).errors = []
    ∧ ∃ m, (fuzzy_mapping p c t).result = some m
        ∧ ∀ v ∈ m.getCol "New EAN", v = none := by
  rw [fuzzy_mapping_success hA hcA hcE]
  refine ⟨rfl, p.setCol "New EAN" ((p.getCol "ASIN").map
      (match_asin (c.getCol "ASIN") (c.getCol "New EAN") t)), rfl, ?_⟩
  rw [getCol_setCol_self hwf (fuzzy_vals_length p c t)]
  intro v hv
  rcases List.mem_map.mp hv with ⟨a, _, ha⟩
  rw [← ha]
  exact match_asin_of_gt100 a ht

/-- Witness instantiating the amended C3 at concrete validated tables with
threshold 101. -/
theorem C3_witness :
    (fuzzy_mapping pA1 cOne 101).errors = []
    ∧ ∃ m, (fuzzy_mapping pA1 cOne 101).result = some m
        ∧ ∀ v ∈ m.getCol "New EAN", v = none :=
  C3_no_threshold_validation pA1 cOne 101
    (show ∀ r ∈ pA1.rows, r.length = pA1.cols.length by decide)
    (by decide) (by decide) (by decide) (by norm_num)

/-! ### Claim C4 -/

/-- Claim C4 as stated is false: the fuzzy strategy writes the target column
directly onto its input portal table (`df_portal["New EAN"] = ...`) and
returns that same table, so after the call the portal table differs from
what was passed in, and the result is the mutated input rather than a
distinct fresh table. -/
theorem C4_counterexample :
    (fuzzy_mapping pA1 cOne 90).portalAfter ≠ pA1
    ∧ (fuzzy_mapping pA1 cOne 90).result
      = some ((fuzzy_mapping pA1 cOne 90).portalAfter) := by
  constructor
  · norm_num +decide [fuzzy_mapping, pA1, cOne, Table.setCol, Table.getCol,
      getCell, match_asin, extractOne, scoreChoices, bestOf, fuzzRatioQ,
      lcsLen, lcsLenF, firstIdx]
  · norm_num +decide [fuzzy_mapping, pA1, cOne]

/-- Claim C4 (amended): the exact join leaves the portal table unmodified
and returns a separately built table, but the fuzzy match mutates the
portal table — whenever validation passes and the portal lacks the target
column, the post-call portal differs from the input — and what it returns
is exactly that mutated portal table, not a distinct fresh one. -/
theorem C4_mutation (p c : Table) (t : ℚ) :
    (rule_based_mapping p c).portalAfter = p
    ∧ (∀ m, (fuzzy_mapping p c t).result = some m →
        (fuzzy_mapping p c t).portalAfter = m)
    ∧ ("ASIN" ∈ p.cols → "ASIN" ∈ c.cols → "New EAN" ∈ c.cols →
        "New EAN" ∉ p.cols → (fuzzy_mapping p c t).portalAfter ≠ p) := by
  refine ⟨rule_based_portalAfter p c, ?_, ?_⟩
  · intro m hm
    by_cases h1 : "ASIN" ∉ p.cols
    · simp [fuzzy_mapping, if_pos h1] at hm
    · by_cases h2 : "ASIN" ∉ c.cols
      · simp [fuzzy_mapping, if_neg h1, if_pos h2] at hm
      · by_cases h3 : "New EAN" ∉ c.cols
        · simp [fuzzy_mapping, if_neg h1, if_neg h2, if_pos h3] at hm
        · rw [fuzzy_mapping_success (not_not.mp h1) (not_not.mp h2)
            (not_not.mp h3)] at hm ⊢
          exact Option.some_injective _ hm
  · intro hA hcA hcE hnE
    rw [fuzzy_mapping_success hA hcA hcE]
    intro heq
    have hcols := congrArg Table.cols heq
    simp only [Table.setCol, if_neg hnE] at hcols
    have hlen := congrArg List.length hcols
    simp at hlen

/-- Witness instantiating the amended C4: on concrete validated tables the
fuzzy match's post-call portal differs from the input portal. -/
theorem C4_witness : (fuzzy_mapping pA1 cOne 90).portalAfter ≠ pA1 :=
  (C4_mutation pA1 cOne 90).2.2 (by decide) (by decide) (by decide) (by decide)

/-! ### Claim C5 -/

/-- Claim C5: both strategies run the same three checks in deterministic
order — key column in the portal, key column in the catalogue, target
column in the catalogue — before any join or match logic; the first absent
column aborts the call with an error naming both the column and the table
being checked, and no mapped table is produced; when all three checks pass,
no error is reported and a mapped table is returned. -/
theorem C5_validation_order (p c : Table) (t : ℚ) :
    ("ASIN" ∉ p.cols →
      (rule_based_mapping p c).result = none
      ∧ (rule_based_mapping p c).errors = [.missingColumn "Portal" "ASIN"]
      ∧ (fuzzy_mapping p c t).result = none
      ∧ (fuzzy_mapping p c t).errors = [.missingColumn "Portal" "ASIN"])
    ∧ ("ASIN" ∈ p.cols → "ASIN" ∉ c.cols →
      (rule_based_mapping p c).result = none
      ∧ (rule_based_mapping p c).errors = [.missingColumn "Catalogue" "ASIN"]
      ∧ (fuzzy_mapping p c t).result = none
      ∧ (fuzzy_mapping p c t).errors = [.missingColumn "Catalogue" "ASIN"])
    ∧ ("ASIN" ∈ p.cols → "ASIN" ∈ c.cols → "New EAN" ∉ c.cols →
      (rule_based_mapping p c).result = none
      ∧ (rule_based_mapping p c).errors = [.missingColumn "Catalogue" "New EAN"]
      ∧ (fuzzy_mapping p c t).result = none
      ∧ (fuzzy_mapping p c t).errors = [.missingColumn "Catalogue" "New EAN"])
    ∧ ("ASIN" ∈ p.cols → "ASIN" ∈ c.cols → "New EAN" ∈ c.cols →
      (rule_based_mapping p c).errors = []
      ∧ (∃ m, (rule_based_mapping p c).result = some m)
      ∧ (fuzzy_mapping p c t).errors = []
      ∧ (∃ m, (fuzzy_mapping p c t).result = some m)) := by
  refine ⟨?_, ?_, ?_, ?_⟩
  · intro h1
    simp [rule_based_mapping, fuzzy_mapping, if_pos h1]
  · intro hA h2
    simp [rule_based_mapping, fuzzy_mapping, if_neg (not_not_intro hA), if_pos h2]
  · intro hA hcA h3
    simp [rule_based_mapping, fuzzy_mapping, if_neg (not_not_intro hA),
      if_neg (not_not_intro hcA), if_pos h3]
  · intro hA hcA hcE
    rw [rule_based_mapping_success hA hcA hcE, fuzzy_mapping_success hA hcA hcE]
    exact ⟨rfl, ⟨_, rfl⟩, rfl, ⟨_, rfl⟩⟩

/-- Witness instantiating C5 on a portal table missing the key column while
the catalogue is also malformed: the portal check fires first. -/
theorem C5_witness :
    (rule_based_mapping pBad cBad).result = none
    ∧ (rule_based_mapping pBad cBad).errors = [.missingColumn "Portal" "ASIN"]
    ∧ (fuzzy_mapping pBad cBad 90).result = none
    ∧ (fuzzy_mapping pBad cBad 90).errors = [.missingColumn "Portal" "ASIN"] :=
  (C5_validation_order pBad cBad 90).1 (by decide)

/-! ### Claim C6 -/

/-- Claim C6: for a portal record with key `q` processed by the fuzzy match
under a validated threshold, if the maximum similarity score over the
catalogue keys reaches the threshold then the record's new target is the
matched catalogue record's target (a record whose key attains the maximum
score); otherwise — in particular whenever the threshold exceeds the
maximum score by any amount — the new target is missing. -/
theorem C6_threshold_semantics (q : String) (asins eans : List Value) (t : ℚ)
    (ht0 : 0 ≤ t) (ht100 : t ≤ 100) (hne : ∃ s, some s ∈ asins) :
    (t ≤ maxScore q asins →
      ∃ i s, i < asins.length ∧ asins.getD i none = some s
        ∧ fuzzRatioQ q s = maxScore q asins
        ∧ match_asin asins eans t (some q) = eans.getD i none)
    ∧ (maxScore q asins < t → match_asin asins eans t (some q) = none) := by
  obtain ⟨s0, hs0⟩ := hne
  obtain ⟨x, sc, hx⟩ := extractOne_isSome (q := q) hs0
  have hmax := maxScore_eq hx
  obtain ⟨⟨s, hxs, hsc, hmem⟩, hub⟩ := extractOne_spec hx
  have hxmem : x ∈ asins := by rw [hxs]; exact hmem
  constructor
  · intro hts
    refine ⟨firstIdx asins x, s, firstIdx_lt_of_mem hxmem, ?_, ?_, ?_⟩
    · rw [getD_firstIdx hxmem, hxs]
    · rw [← hsc, hmax]
    · exact match_asin_eq_of_le hx (le_of_le_of_eq hts hmax)
  · intro hlt
    exact match_asin_eq_none_of_lt hx (lt_of_eq_of_lt hmax.symm hlt)

/-- Witness instantiating C6 at the spec's boundary pair: portal key "ASIN1"
versus catalogue key "ASIN2" has maximum score exactly 80, and the theorem
applies at threshold 80. -/
theorem C6_witness :
    ((80 : ℚ) ≤ maxScore "ASIN1" [some "ASIN2"] →
      ∃ i s, i < 1 ∧ [some "ASIN2"].getD i none = some s
        ∧ fuzzRatioQ "ASIN1" s = maxScore "ASIN1" [some "ASIN2"]
        ∧ match_asin [some "ASIN2"] [some "E2"] 80 (some "ASIN1")
          = [some "E2"].getD i none)
    ∧ (maxScore "ASIN1" [some "ASIN2"] < 80 →
      match_asin [some "ASIN2"] [some "E2"] 80 (some "ASIN1") = none) :=
  C6_threshold_semantics "ASIN1" [some "ASIN2"] [some "E2"] 80
    (by norm_num) (by norm_num) ⟨"ASIN2", by simp⟩

/-! ### Claim C7 -/

/-- Claim C7: the catalogue record selected by the fuzzy match attains the
maximum similarity score over all catalogue records, and the index actually
used is the first occurrence of the matched key — every non-missing
catalogue key strictly before it scores strictly below the selected score,
so the first-encountered record wins among equal maximum scores, including
when the same key string occurs in several catalogue rows. -/
theorem C7_best_and_first (q : String) (asins eans : List Value) (t : ℚ)
    (x : Value) (sc : ℚ) (hx : extractOne (some q) asins = some (x, sc)) :
    firstIdx asins x < asins.length
    ∧ (∃ s, asins.getD (firstIdx asins x) none = some s ∧ fuzzRatioQ q s = sc)
    ∧ (∀ j s, asins.getD j none = some s → fuzzRatioQ q s ≤ sc)
    ∧ (∀ j s, j < firstIdx asins x → asins.getD j none = some s →
        fuzzRatioQ q s < sc)
    ∧ (t ≤ sc → match_asin asins eans t (some q)
        = eans.getD (firstIdx asins x) none) := by
  obtain ⟨⟨s, hxs, hsc, hmem⟩, hub⟩ := extractOne_spec hx
  have hxmem : x ∈ asins := by rw [hxs]; exact hmem
  refine ⟨firstIdx_lt_of_mem hxmem, ⟨s, ?_, hsc.symm⟩, ?_, ?_, ?_⟩
  · rw [getD_firstIdx hxmem, hxs]
  · intro j s' hget
    exact hub s' (mem_of_getD hget)
  · intro j s' hj hget
    exact extractOne_first asins x sc hx j hj s' hget
  · intro ht
    exact match_asin_eq_of_le hx ht

/-- Witness instantiating C7 where the best score appears behind a worse
one and the matched key "A1" occurs twice: the first occurrence (index 1,
target "y") is the one used. -/
theorem C7_witness :
    firstIdx [some "B", some "A1", some "A1"] (some "A1")
      < [some "B", some "A1", some "A1"].length
    ∧ (∃ s, [some "B", some "A1", some "A1"].getD
          (firstIdx [some "B", some "A1", some "A1"] (some "A1")) none = some s
        ∧ fuzzRatioQ "A1" s = 100)
    ∧ (∀ j s, [some "B", some "A1", some "A1"].getD j none = some s →
        fuzzRatioQ "A1" s ≤ 100)
    ∧ (∀ j s, j < firstIdx [some "B", some "A1", some "A1"] (some "A1") →
        [some "B", some "A1", some "A1"].getD j none = some s →
        fuzzRatioQ "A1" s < 100)
    ∧ ((90 : ℚ) ≤ 100 →
        match_asin [some "B", some "A1", some "A1"]
          [some "x", some "y", some "z"] 90 (some "A1")
        = [some "x", some "y", some "z"].getD
            (firstIdx [some "B", some "A1", some "A1"] (some "A1")) none) :=
  C7_best_and_first "A1" [some "B", some "A1", some "A1"]
    [some "x", some "y", some "z"] 90 (some "A1") 100
    (by norm_num +decide [extractOne, scoreChoices, bestOf, fuzzRatioQ,
        lcsLen, lcsLenF] <;>
      norm_num [show "A1".length = 2 from rfl])

/-! ### Claim C8 -/

/-- Claim C8: neither strategy mutates the catalogue table — after any
invocation of either linkage function, the catalogue table equals the one
passed in. -/
theorem C8_catalogue_readonly (p c : Table) (t : ℚ) :
    (rule_based_mapping p c).catalogueAfter = c
    ∧ (fuzzy_mapping p c t).catalogueAfter = c :=
  ⟨rule_based_catalogueAfter p c, fuzzy_catalogueAfter p c t⟩

/-! ### Claim C9 -/

/-- Claim C9: the exact join carries no state across invocations — running
it a second time, on the tables as they stand after the first run, returns
the very same outcome (result, table states and errors) as the first run. -/
theorem C9_pure_idempotent (p c : Table) :
    rule_based_mapping (rule_based_mapping p c).portalAfter
        (rule_based_mapping p c).catalogueAfter
      = rule_based_mapping p c := by
  rw [rule_based_portalAfter, rule_based_catalogueAfter]

/-! ### Claim C10 -/

/-- Claim C10: a catalogue with both required columns but zero records makes
the fuzzy match succeed without error, returning a mapped table with one
row per portal row in which every target value is missing. -/
theorem C10_empty_catalogue (p c : Table) (t : ℚ) (hwf : p.WF)
    (hA : "ASIN" ∈ p.cols) (hcA : "ASIN" ∈ c.cols) (hcE : "New EAN" ∈ c.cols)
    (hempty : c.rows = []) :
    (fuzzy_mapping p c t).errors = []
    ∧ ∃ m, (fuzzy_mapping p c t).result = some m
        ∧ m.rows.length = p.rows.length
        ∧ ∀ v ∈ m.getCol "New EAN", v = none := by
  rw [fuzzy_mapping_success hA hcA hcE]
  refine ⟨rfl, _, rfl, ?_, ?_⟩
  · rw [setCol_rows_length, fuzzy_vals_length, Nat.min_self]
  · rw [getCol_setCol_self hwf (fuzzy_vals_length p c t)]
    intro v hv
    rcases List.mem_map.mp hv with ⟨a, _, ha⟩
    rw [← ha]
    have hnil : c.getCol "ASIN" = [] := by simp [Table.getCol, hempty]
    rw [hnil]
    exact match_asin_nil _ t a

/-- An empty catalogue that still carries both required columns. -/
def cEmpty : Table := ⟨["ASIN", "New EAN"], []⟩

/-- Witness instantiating C10 at a concrete portal and the empty catalogue. -/
theorem C10_witness :
    (fuzzy_mapping pA1 cEmpty 90).errors = []
    ∧ ∃ m, (fuzzy_mapping pA1 cEmpty 90).result = some m
        ∧ m.rows.length = pA1.rows.length
        ∧ ∀ v ∈ m.getCol "New EAN", v = none :=
  C10_empty_catalogue pA1 cEmpty 90
    (show ∀ r ∈ pA1.rows, r.length = pA1.cols.length by decide)
    (by decide) (by decide) (by decide) rfl

end Loreal
